import Mathlib

/-! Ledger pre-execution engine: `src/ledger/ledgercontext_manager.cpp`

A shallow embedding of `bubi::LedgerContext` and `bubi::LedgerContextManager`.

* Objects reached through pointers are records carrying their address (`addr`); pointer
  comparison is comparison of addresses.
* `std::map` / `std::multimap` are association lists.  The operations of the file only
  look keys up, erase by a predicate on the entry, insert and take the size, none of which
  depends on the order of the entries, so the entries are kept in insertion order.
* The JSON object `logs_` is the list of its members, kept in the order of their names as
  jsoncpp keeps them.
* `std::stack<int64_t>` is its underlying sequence: `push` appends at the back, `top` reads the
  back, `pop` drops the back.
* Calls that leave the file (thread start, the applier, callbacks, the contract interpreter)
  are recorded in a list of `Effect`s, and what they answer is an argument of the operation.
* A worker thread that has been started runs `LedgerContext::Run`, which for the jobs of the
  registry (`type_ = -1`) is `LedgerContext::Do`; the registry operations are atomic under
  `ctxs_lock_`, so executions are sequences of operations.
-/

namespace bubi

/-! ## Data model -/

/-- The fields of `protocol::ConsensusValue` read by this file; `txset` stands for the rest of
the message. -/
structure ConsensusValue where
  ledger_seq : Int
  close_time : Int
  previous_ledger_hash : String
  txset : List String
deriving DecidableEq

/-- Header of the closing ledger, as written by `LedgerContext::Do`. -/
structure LedgerHeader where
  seq : Int
  close_time : Int
  previous_hash : String
  consensus_value_hash : String
  version : Int
deriving DecidableEq

/-- The object behind `closing_ledger_` (`LedgerFrm`): its header and the applied transactions. -/
structure LedgerFrm where
  header : LedgerHeader
  apply_tx_frms_ : List String
deriving DecidableEq

/-- Result of `std::make_shared<LedgerFrm>()`: a default (all-zero, empty) ledger. -/
def LedgerFrm.make_shared : LedgerFrm :=
  { header := { seq := 0, close_time := 0, previous_hash := "", consensus_value_hash := "",
                version := 0 },
    apply_tx_frms_ := [] }

/-- A `PreProcessCallback` value: the default-constructed (empty) `std::function`, the lambda
`[](bool) {}` of `SyncPreProcess`, or a callback handed in by the caller. -/
inductive PreProcessCallback where
  | empty
  | noop
  | user (id : Nat)
deriving DecidableEq

/-- One `LedgerContext` object.  `addr` is the address of the object, `lpmanager_` tells whether
the manager pointer is non-NULL, `contract_ids_` lists the stack bottom first, `logs_` lists the
members of the JSON object `logs_` (key and the array of lines stored under it) in the order of
their keys. -/
structure LedgerContext where
  addr : Nat
  type_ : Int
  lpmanager_ : Bool
  hash_ : String
  consensus_value_ : ConsensusValue
  start_time_ : Int
  exe_result_ : Bool
  sync_ : Bool
  callback_ : PreProcessCallback
  tx_timeout_ : Int
  timeout_tx_index_ : Int
  closing_ledger_ : LedgerFrm
  contract_ids_ : List Int
  logs_ : List (String × List String)
deriving DecidableEq

/-- Constructor `LedgerContext(chash, consvalue, timeout)`: no manager, `sync_ = true`. -/
def LedgerContext.new (addr : Nat) (chash : String) (consvalue : ConsensusValue)
    (timeout : Int) : LedgerContext :=
  { addr := addr, type_ := -1, lpmanager_ := false, hash_ := chash,
    consensus_value_ := consvalue, start_time_ := -1, exe_result_ := false, sync_ := true,
    callback_ := PreProcessCallback.empty, tx_timeout_ := timeout, timeout_tx_index_ := -1,
    closing_ledger_ := LedgerFrm.make_shared, contract_ids_ := [], logs_ := [] }

/-- Constructor `LedgerContext(lpmanager, chash, consvalue, timeout, callback)`:
manager set, `sync_ = false`. -/
def LedgerContext.newManaged (addr : Nat) (chash : String) (consvalue : ConsensusValue)
    (timeout : Int) (callback : PreProcessCallback) : LedgerContext :=
  { addr := addr, type_ := -1, lpmanager_ := true, hash_ := chash,
    consensus_value_ := consvalue, start_time_ := -1, exe_result_ := false, sync_ := false,
    callback_ := callback, tx_timeout_ := timeout, timeout_tx_index_ := -1,
    closing_ledger_ := LedgerFrm.make_shared, contract_ids_ := [], logs_ := [] }

/-- Calls that leave the file, in the order they are made. -/
inductive Effect where
  /-- The expression `new LedgerContext(...)`, yielding the object at `addr`. -/
  | New (addr : Nat)
  /-- The call `ledger_context->Start(name)` and what it returned. -/
  | Start (addr : Nat) (name : String) (ok : Bool)
  /-- The call `closing_ledger_->Apply(...)` made by the job at `addr`. -/
  | Apply (addr : Nat)
  /-- The call `callback_(arg)`. -/
  | Callback (cb : PreProcessCallback) (arg : Bool)
  /-- The call `ContractManager::Instance().Cancel(cid)`. -/
  | ContractCancel (cid : Int)
  /-- The call `JoinWithStop()` of the job at `addr`. -/
  | JoinWithStop (addr : Nat)
  /-- The statement `delete ledger_context`. -/
  | Delete (addr : Nat)
deriving DecidableEq

/-- The registry: `running_ctxs_` (multimap), `completed_ctxs_` (map), and the next address
`new` hands out (an address never equals that of an object still alive). -/
structure LedgerContextManager where
  running_ctxs_ : List (String × LedgerContext)
  completed_ctxs_ : List (String × LedgerContext)
  heap_next_ : Nat
deriving DecidableEq

/-- A freshly constructed manager: both maps empty. -/
def LedgerContextManager.init : LedgerContextManager :=
  { running_ctxs_ := [], completed_ctxs_ := [], heap_next_ := 0 }

/-- Collaborators the file calls but does not define: `SerializeAsString` of the protobuf
message, `HashWrapper::Crypto`, and the version of the last closed ledger. -/
structure Deps where
  SerializeAsString : ConsensusValue → String
  Crypto : String → String
  last_closed_version : Int

/-- The two lines `con_str = consensus_value.SerializeAsString(); chash = Crypto(con_str)`. -/
def fingerprint (D : Deps) (cv : ConsensusValue) : String :=
  D.Crypto (D.SerializeAsString cv)

/-- Modelled from the spec: the constant `utils::MICRO_UNITS_PER_SEC` (the fixed `tx_timeout`
of one second, in microseconds) is declared outside the file. -/
def MICRO_UNITS_PER_SEC : Int := 1000000

/-! ## Map primitives -/

/-- Member function `find` of map: the job stored under `chash`, if any. -/
def mapFind (chash : String) : List (String × LedgerContext) → Option LedgerContext
  | [] => none
  | e :: rest => if e.1 = chash then some e.2 else mapFind chash rest

/-- Member function `insert` of `std::map`: nothing happens when the key is already present. -/
def mapInsert (chash : String) (c : LedgerContext) (l : List (String × LedgerContext)) :
    List (String × LedgerContext) :=
  match mapFind chash l with
  | some _ => l
  | none => l ++ [(chash, c)]

/-- Member function `insert` of `std::multimap`: always adds the entry. -/
def multimapInsert (chash : String) (c : LedgerContext) (l : List (String × LedgerContext)) :
    List (String × LedgerContext) :=
  l ++ [(chash, c)]

/-! ## Registry operations -/

/-- Function `LedgerContextManager::CheckComplete`. -/
def CheckComplete (m : LedgerContextManager) (chash : String) : Int :=
  match mapFind chash m.completed_ctxs_ with
  | some c => if c.exe_result_ then 1 else 0
  | none => -1

/-- The loop of `MoveRunningToComplete`: `erase(iter++)` on the entries whose pointer is
`ledger_context`, `iter++` on the others. -/
def MoveRunningToComplete.loop (ledger_context : Nat) :
    List (String × LedgerContext) → List (String × LedgerContext)
  | [] => []
  | e :: rest =>
    if e.2.addr = ledger_context then MoveRunningToComplete.loop ledger_context rest
    else e :: MoveRunningToComplete.loop ledger_context rest

/-- Function `LedgerContextManager::MoveRunningToComplete`. -/
def MoveRunningToComplete (m : LedgerContextManager) (ledger_context : LedgerContext) :
    LedgerContextManager :=
  { m with
    running_ctxs_ := MoveRunningToComplete.loop ledger_context.addr m.running_ctxs_,
    completed_ctxs_ := mapInsert ledger_context.hash_ ledger_context m.completed_ctxs_ }

/-- The loop of `RemoveCompleted`: entries with `ledger_seq() <= ledger_seq` are deleted and
erased, the others are stepped over. -/
def RemoveCompleted.loop (ledger_seq : Int) :
    List (String × LedgerContext) → List (String × LedgerContext)
  | [] => []
  | e :: rest =>
    if e.2.consensus_value_.ledger_seq ≤ ledger_seq then RemoveCompleted.loop ledger_seq rest
    else e :: RemoveCompleted.loop ledger_seq rest

/-- Function `LedgerContextManager::RemoveCompleted`. -/
def RemoveCompleted (m : LedgerContextManager) (ledger_seq : Int) : LedgerContextManager :=
  { m with completed_ctxs_ := RemoveCompleted.loop ledger_seq m.completed_ctxs_ }

/-- What `GetModuleStatus` writes into `data`. -/
structure ModuleStatus where
  completed_size : Nat
  running_size : Nat
deriving DecidableEq

/-- Function `LedgerContextManager::GetModuleStatus`. -/
def GetModuleStatus (m : LedgerContextManager) : ModuleStatus :=
  { completed_size := m.completed_ctxs_.length, running_size := m.running_ctxs_.length }

/-! ## The job -/

/-- What the applier answers to `closing_ledger_->Apply(consensus_value_, this, tx_timeout_,
timeout_tx_index_)`: the returned flag, the value left in `timeout_tx_index_`, and the
transactions it put on the ledger. -/
structure ApplyOutcome where
  result : Bool
  timeout_tx_index : Int
  apply_tx_frms : List String
deriving DecidableEq

/-- Outcome of `LedgerContext::Do`: the registry, the job and the calls made. -/
structure DoResult where
  mgr : LedgerContextManager
  ctx : LedgerContext
  effects : List Effect

/-- Function `LedgerContext::Do`, run against the registry `m` the job may point to. -/
def Do (D : Deps) (m : LedgerContextManager) (c : LedgerContext) (a : ApplyOutcome) : DoResult :=
  let header : LedgerHeader :=
    { c.closing_ledger_.header with
      seq := c.consensus_value_.ledger_seq,
      close_time := c.consensus_value_.close_time,
      previous_hash := c.consensus_value_.previous_ledger_hash,
      consensus_value_hash := c.hash_,
      version := D.last_closed_version }
  let c1 : LedgerContext :=
    { c with
      closing_ledger_ := { header := header,
                           apply_tx_frms_ := c.closing_ledger_.apply_tx_frms_ ++ a.apply_tx_frms },
      exe_result_ := a.result,
      timeout_tx_index_ := a.timeout_tx_index }
  let fx1 := [Effect.Apply c.addr]
  let fx2 := if !c1.sync_ then fx1 ++ [Effect.Callback c1.callback_ c1.exe_result_] else fx1
  let m1 := if c1.lpmanager_ then MoveRunningToComplete m c1 else m
  { mgr := m1, ctx := c1, effects := fx2 }

/-- Function `LedgerContext::PushContractId`. -/
def PushContractId (c : LedgerContext) (id : Int) : LedgerContext :=
  { c with contract_ids_ := c.contract_ids_ ++ [id] }

/-- Function `LedgerContext::PopContractId`; popping an empty `std::stack` has no defined
result. -/
def PopContractId (c : LedgerContext) : Option LedgerContext :=
  if c.contract_ids_ = [] then none
  else some { c with contract_ids_ := c.contract_ids_.dropLast }

/-- Function `LedgerContext::GetTopContractId`. -/
def GetTopContractId (c : LedgerContext) : Int :=
  match c.contract_ids_.getLast? with
  | some top => top
  | none => -1

/-- The `while (!copy_stack.empty())` loop of `Cancel`: read the top, cancel it, pop.  Each
round pops one element, so `fuel = copy_stack.size()` rounds are all the loop can make. -/
def Cancel.loop : Nat → List Int → List Effect
  | 0, _ => []
  | fuel + 1, copy_stack =>
    match copy_stack.getLast? with
    | none => []
    | some cid => Effect.ContractCancel cid :: Cancel.loop fuel copy_stack.dropLast

/-- Function `LedgerContext::Cancel`: the job afterwards and the calls made. -/
def Cancel (c : LedgerContext) : LedgerContext × List Effect :=
  let copy_stack := c.contract_ids_
  (c, Cancel.loop copy_stack.length copy_stack ++ [Effect.JoinWithStop c.addr])

/-- The C string `address.c_str()` as a `%s` conversion reads it: the characters before the
first NUL. -/
def c_str (address : String) : List Char :=
  address.data.takeWhile (fun ch => ch ≠ Char.ofNat 0)

/-- The order in which a jsoncpp object keeps its member names: byte-wise, a proper prefix
first (`strcmp`). -/
def keyLe : List Char → List Char → Bool
  | [], _ => true
  | _ :: _, [] => false
  | a :: as, b :: bs =>
    if a.toNat < b.toNat then true
    else if a.toNat = b.toNat then keyLe as bs
    else false

/-- Two members of a JSON object in the order of their names. -/
abbrev memberLe (e1 e2 : String × List String) : Prop := keyLe e1.1.data e2.1.data = true

/-- Expression `logs_[key]` of jsoncpp: the member is created (empty) when absent, at its place
in the order of the member names. -/
def jsonMember (key : String) (obj : List (String × List String)) :
    List (String × List String) :=
  if obj.any (fun e => e.1 == key) then obj else obj.orderedInsert memberLe (key, [])

/-- The `for` loop of `PushLog` on the member `item`: `item[item.size()] = *iter`. -/
def PushLog.loop (item : List String) : List String → List String
  | [] => item
  | line :: rest => PushLog.loop (item ++ [line]) rest

/-- Function `LedgerContext::PushLog`.  `Format size cstr` stands for the call
`utils::String::Format(FMT_SIZE "-%s", size, cstr)`, a function declared outside the file; the
key is formatted from `logs_.size()` and `address.c_str()` before the member is looked up. -/
def PushLog (Format : Nat → List Char → String) (c : LedgerContext) (address : String)
    (logs : List String) : LedgerContext :=
  let key := Format c.logs_.length (c_str address)
  let obj := jsonMember key c.logs_
  { c with logs_ := obj.map (fun e => if e.1 = key then (e.1, PushLog.loop e.2 logs) else e) }

/-- What `printf` prints for the format string `FMT_SIZE "-%s"`, with `FMT_SIZE` the conversion
of a `size_t` in decimal: the size, a dash, the C string. -/
def printfFormat (size : Nat) (cstr : List Char) : String :=
  String.mk (Nat.toDigits 10 size ++ '-' :: cstr)

/-- Function `LedgerContext::GetLogs`. -/
def GetLogs (c : LedgerContext) : List (String × List String) := c.logs_

/-! ## Orchestrator entry points -/

/-- Outcome of `SyncProcess`: the returned ledger, the registry afterwards, the calls made. -/
structure SyncProcessResult where
  ledger : LedgerFrm
  mgr : LedgerContextManager
  effects : List Effect

/-- Function `LedgerContextManager::SyncProcess`; `a` is what the applier answers if it is
called. -/
def SyncProcess (D : Deps) (m : LedgerContextManager) (consensus_value : ConsensusValue)
    (a : ApplyOutcome) : SyncProcessResult :=
  let chash := fingerprint D consensus_value
  match mapFind chash m.completed_ctxs_ with
  | some c => { ledger := c.closing_ledger_, mgr := m, effects := [] }
  | none =>
    let ledger_context := LedgerContext.new m.heap_next_ chash consensus_value (-1)
    let r := Do D m ledger_context a
    { ledger := r.ctx.closing_ledger_, mgr := r.mgr, effects := r.effects }

/-- The erase loop of the start-failure branch of `AsyncPreProcess`.  On a match the entry is
erased with `erase(iter)` and the loop header then increments the erased iterator, which has no
defined result (`none`); there is no `break`. -/
def AsyncPreProcess.eraseLoop (ledger_context : Nat) :
    List (String × LedgerContext) → Option (List (String × LedgerContext))
  | [] => some []
  | e :: rest =>
    if e.2.addr = ledger_context then none
    else (AsyncPreProcess.eraseLoop ledger_context rest).map (fun l => e :: l)

/-- Outcome of `AsyncPreProcess`. -/
structure AsyncResult where
  ret : Int
  timeout_tx_index : Int
  mgr : LedgerContextManager
  effects : List Effect
deriving DecidableEq

/-- Function `LedgerContextManager::AsyncPreProcess`; `start_ok` is what `Start` returns.
`none` when the call runs into behaviour the language leaves undefined. -/
def AsyncPreProcess (D : Deps) (m : LedgerContextManager) (consensus_value : ConsensusValue)
    (_timeout : Int) (callback : PreProcessCallback) (timeout_tx_index : Int)
    (start_ok : Bool) : Option AsyncResult :=
  let chash := fingerprint D consensus_value
  let check_complete := CheckComplete m chash
  if check_complete > 0 then
    some { ret := check_complete, timeout_tx_index := timeout_tx_index, mgr := m, effects := [] }
  else
    let ledger_context :=
      LedgerContext.newManaged m.heap_next_ chash consensus_value MICRO_UNITS_PER_SEC callback
    let m1 : LedgerContextManager :=
      { m with heap_next_ := m.heap_next_ + 1,
               running_ctxs_ := multimapInsert chash ledger_context m.running_ctxs_ }
    let fx := [Effect.New ledger_context.addr,
               Effect.Start ledger_context.addr "process-value" start_ok]
    if !start_ok then
      match AsyncPreProcess.eraseLoop ledger_context.addr m1.running_ctxs_ with
      | none => none
      | some running =>
        some { ret := 0, timeout_tx_index := -1, mgr := { m1 with running_ctxs_ := running },
               effects := fx }
    else
      some { ret := -1, timeout_tx_index := timeout_tx_index, mgr := m1, effects := fx }

/-- What happens around the worker of one `SyncPreProcess` call: whether `Start` succeeded,
whether the polling loop saw `total_timeout` exceeded, the contract ids on the job's stack when
`Cancel` copied it, and what the applier answered. -/
structure WorkerRun where
  start_ok : Bool
  is_timeout : Bool
  ids_at_cancel : List Int
  apply : ApplyOutcome
deriving DecidableEq

/-- Outcome of `SyncPreProcess`. -/
structure SyncPreResult where
  ret : Bool
  timeout_tx_index : Int
  mgr : LedgerContextManager
  effects : List Effect
deriving DecidableEq

/-- Function `LedgerContextManager::SyncPreProcess`.  Once started, the worker runs `Do`; the
caller either sees it finish or cancels it and joins it, so `Do` has returned in both cases
when the call returns.  On a timeout the calls of the worker are listed after those of
`Cancel`, whose `JoinWithStop` waits for them. -/
def SyncPreProcess (D : Deps) (m : LedgerContextManager) (consensus_value : ConsensusValue)
    (_total_timeout : Int) (timeout_tx_index : Int) (w : WorkerRun) : SyncPreResult :=
  let chash := fingerprint D consensus_value
  let check_complete := CheckComplete m chash
  if check_complete > 0 then
    { ret := check_complete == 1, timeout_tx_index := timeout_tx_index, mgr := m, effects := [] }
  else
    let ledger_context :=
      LedgerContext.newManaged m.heap_next_ chash consensus_value MICRO_UNITS_PER_SEC
        PreProcessCallback.noop
    let m1 : LedgerContextManager := { m with heap_next_ := m.heap_next_ + 1 }
    let fx := [Effect.New ledger_context.addr,
               Effect.Start ledger_context.addr "process-value" w.start_ok]
    if !w.start_ok then
      { ret := false, timeout_tx_index := -1, mgr := m1,
        effects := fx ++ [Effect.Delete ledger_context.addr] }
    else
      let r := Do D m1 ledger_context w.apply
      if w.is_timeout then
        let cancelled := Cancel { ledger_context with contract_ids_ := w.ids_at_cancel }
        { ret := false, timeout_tx_index := r.ctx.timeout_tx_index_, mgr := r.mgr,
          effects := fx ++ cancelled.2 ++ r.effects }
      else
        { ret := true, timeout_tx_index := timeout_tx_index, mgr := r.mgr,
          effects := fx ++ r.effects }

/-! ## Executions -/

/-- One step of an execution of the registry. -/
inductive Op where
  /-- A call of `AsyncPreProcess`. -/
  | Async (cv : ConsensusValue) (timeout : Int) (callback : PreProcessCallback)
      (timeout_tx_index : Int) (start_ok : Bool)
  /-- A call of `SyncPreProcess`. -/
  | SyncPre (cv : ConsensusValue) (total_timeout : Int) (timeout_tx_index : Int) (w : WorkerRun)
  /-- The worker of the enlisted job at `addr` runs `Do`, ending in `MoveRunningToComplete`. -/
  | WorkerExit (addr : Nat) (a : ApplyOutcome)
  /-- A call of `RemoveCompleted`. -/
  | Remove (ledger_seq : Int)
deriving DecidableEq

/-- The registry after one step; `none` when the step cannot be taken (no such enlisted job) or
has no defined result. -/
def step (D : Deps) (m : LedgerContextManager) : Op → Option LedgerContextManager
  | Op.Async cv timeout callback tti start_ok =>
    (AsyncPreProcess D m cv timeout callback tti start_ok).map (fun r => r.mgr)
  | Op.SyncPre cv total_timeout tti w => some (SyncPreProcess D m cv total_timeout tti w).mgr
  | Op.WorkerExit addr a =>
    match m.running_ctxs_.find? (fun e => e.2.addr = addr) with
    | none => none
    | some e => some (Do D m e.2 a).mgr
  | Op.Remove ledger_seq => some (RemoveCompleted m ledger_seq)

/-- The registry after a sequence of steps. -/
def run (D : Deps) : LedgerContextManager → List Op → Option LedgerContextManager
  | m, [] => some m
  | m, op :: ops =>
    match step D m op with
    | none => none
    | some m1 => run D m1 ops

/-- The states an execution can reach from the empty registry. -/
def Reachable (D : Deps) (m : LedgerContextManager) : Prop :=
  ∃ ops : List Op, run D LedgerContextManager.init ops = some m

/-- The keys of a map. -/
def keys (l : List (String × LedgerContext)) : List String := l.map (fun e => e.1)

/-! ## Concrete inputs -/

/-- A stand-in for the serialiser and the hash: the transaction set joined, hashed by the
identity. -/
def demoDeps : Deps :=
  { SerializeAsString := fun cv => String.join cv.txset, Crypto := fun s => s,
    last_closed_version := 1 }

/-- A consensus value with the given sequence number and content. -/
def demoCv (seq : Int) (tx : String) : ConsensusValue :=
  { ledger_seq := seq, close_time := 0, previous_ledger_hash := "", txset := [tx] }

/-- A worker that starts, is not timed out, and whose applier answers `result`. -/
def demoRun (result : Bool) : WorkerRun :=
  { start_ok := true, is_timeout := false, ids_at_cancel := [],
    apply := { result := result, timeout_tx_index := -1, apply_tx_frms := [] } }

/-- The applier answering `result` with nothing else to report. -/
def demoApply (result : Bool) : ApplyOutcome :=
  { result := result, timeout_tx_index := -1, apply_tx_frms := [] }

/-- Scenario S5: three jobs with sequence numbers 5, 7 and 9 have completed. -/
def pruneDemo : LedgerContextManager :=
  (run demoDeps LedgerContextManager.init
    [Op.SyncPre (demoCv 5 "a") 0 (-1) (demoRun true),
     Op.SyncPre (demoCv 7 "b") 0 (-1) (demoRun true),
     Op.SyncPre (demoCv 9 "c") 0 (-1) (demoRun true)]).getD LedgerContextManager.init

/-- Consensus value of scenario S6, submitted twice. -/
def raceCv : ConsensusValue := demoCv 3 "x"

/-- Scenario S6: `AsyncPreProcess(CV3)` has been called twice and both workers run. -/
def raceDemo : LedgerContextManager :=
  (run demoDeps LedgerContextManager.init
    [Op.Async raceCv 0 (PreProcessCallback.user 1) (-1) true,
     Op.Async raceCv 0 (PreProcessCallback.user 2) (-1) true]).getD LedgerContextManager.init

/-- The first job of scenario S6 when its worker leaves `Do`. -/
def raceJob1 : LedgerContext :=
  { LedgerContext.newManaged 0 "x" raceCv MICRO_UNITS_PER_SEC (PreProcessCallback.user 1) with
    exe_result_ := true }

/-- The second job of scenario S6 when its worker leaves `Do`. -/
def raceJob2 : LedgerContext :=
  { LedgerContext.newManaged 1 "x" raceCv MICRO_UNITS_PER_SEC (PreProcessCallback.user 2) with
    exe_result_ := true }

/-- Scenario S6 after the worker of the first job has left `Do`, the second still running. -/
def raceHalfDone : LedgerContextManager :=
  (run demoDeps raceDemo [Op.WorkerExit 0 (demoApply true)]).getD LedgerContextManager.init

/-- No job is at once in the running map and in the completed map, and every job in either map
lies below the next address `new` hands out. -/
def NoSharedJob (m : LedgerContextManager) : Prop :=
  (∀ e ∈ m.running_ctxs_, e.2.addr < m.heap_next_) ∧
  (∀ e ∈ m.completed_ctxs_, e.2.addr < m.heap_next_) ∧
  (∀ r ∈ m.running_ctxs_, ∀ c ∈ m.completed_ctxs_, r.2.addr ≠ c.2.addr)

/-- A job that has not pushed any contract id or log yet. -/
def freshJob : LedgerContext := LedgerContext.new 0 "" (demoCv 1 "") (-1)

/-- The job after the contract ids `ids` have been pushed in that order. -/
def pushIds (c : LedgerContext) (ids : List Int) : LedgerContext := ids.foldl PushContractId c

/-- The job after the calls `PushLog(address, lines)` listed in `calls`, in that order. -/
def pushLogs (Format : Nat → List Char → String) (c : LedgerContext)
    (calls : List (String × List String)) : LedgerContext :=
  calls.foldl (fun c call => PushLog Format c call.1 call.2) c

/-- Reading of a decimal numeral, continuing from the value `v`. -/
def decVal (l : List Char) (v : Nat) : Nat :=
  l.foldl (fun v ch => 10 * v + (ch.toNat - 48)) v

/-- The members of a `logs_` object made by `n` calls of `PushLog`: there are `n` of them and
each key was formatted from a size below `n`. -/
def LogsShape (Format : Nat → List Char → String) (logs : List (String × List String))
    (n : Nat) : Prop :=
  logs.length = n ∧ ∀ e ∈ logs, ∃ j a, j < n ∧ e.1 = Format j a

/-- An address with a NUL character in it: `a`, NUL, `b`. -/
def nulAddress : String := String.mk ['a', Char.ofNat 0, 'b']

/-- The log entries the calls `calls` are to leave, in call order: the key of call `k` is
formatted from `k` and the address as a C string, the value is the lines of the call. -/
def logEntries (Format : Nat → List Char → String) (calls : List (String × List String)) :
    List (String × List String) :=
  calls.enum.map (fun p => (Format p.1 (c_str p.2.1), p.2.2))

/-- The consensus value of the caching scenarios, with sequence number 10. -/
def cachedCv : ConsensusValue := demoCv 10 "y"

/-- A registry whose completed map holds a successful job for `cachedCv`. -/
def cachedOk : LedgerContextManager :=
  (SyncPreProcess demoDeps LedgerContextManager.init cachedCv 0 (-1) (demoRun true)).mgr

/-- A registry whose completed map holds a failed job for `cachedCv`. -/
def cachedFail : LedgerContextManager :=
  (SyncPreProcess demoDeps LedgerContextManager.init cachedCv 0 (-1) (demoRun false)).mgr

/-- A worker that cannot be started. -/
def failedStart : WorkerRun :=
  { start_ok := false, is_timeout := false, ids_at_cancel := [], apply := demoApply false }

/-- A serialiser that writes the sequence number class only, so that equal fingerprints of
`cachedCv` mean equal sequence numbers. -/
def seqDeps : Deps :=
  { SerializeAsString := fun cv => if cv.ledger_seq = 10 then "ten" else "other",
    Crypto := fun s => s, last_closed_version := 1 }

/-- Every enlisted job carries the fingerprint of its consensus value as `hash_`, and every
completed job is filed under the fingerprint of its consensus value. -/
def KeysAreFingerprints (D : Deps) (m : LedgerContextManager) : Prop :=
  (∀ e ∈ m.running_ctxs_, e.2.hash_ = fingerprint D e.2.consensus_value_) ∧
  (∀ e ∈ m.completed_ctxs_, e.1 = fingerprint D e.2.consensus_value_)

/-- Steps taken between two `SyncPreProcess` calls for `cachedCv`: a prune below its sequence
number and the pre-processing of another value. -/
def betweenOps : List Op :=
  [Op.Remove 9, Op.SyncPre (demoCv 11 "z") 0 (-1) (demoRun false),
   Op.Async (demoCv 12 "u") 0 (PreProcessCallback.user 3) (-1) true,
   Op.WorkerExit 2 (demoApply true)]

/-- The registry after a successful `SyncPreProcess(cachedCv)` on the empty registry followed by
`betweenOps`. -/
def shortcutAfter : LedgerContextManager :=
  (run seqDeps
    (SyncPreProcess seqDeps LedgerContextManager.init cachedCv 0 (-1) (demoRun true)).mgr
    betweenOps).getD LedgerContextManager.init

/-! ## Lemmas on the map primitives -/

theorem RemoveCompleted_loop_eq_filter (n : Int) (l : List (String × LedgerContext)) :
    RemoveCompleted.loop n l = l.filter (fun e => decide (n < e.2.consensus_value_.ledger_seq)) := by
  induction l with
  | nil => rfl
  | cons e rest ih =>
    by_cases h : e.2.consensus_value_.ledger_seq ≤ n
    · have h2 : ¬ n < e.2.consensus_value_.ledger_seq := not_lt.mpr h
      simp [RemoveCompleted.loop, h, h2, ih]
    · have h2 : n < e.2.consensus_value_.ledger_seq := not_le.mp h
      simp [RemoveCompleted.loop, h, h2, ih]

theorem MoveRunningToComplete_loop_eq_filter (a : Nat) (l : List (String × LedgerContext)) :
    MoveRunningToComplete.loop a l = l.filter (fun e => decide (e.2.addr ≠ a)) := by
  induction l with
  | nil => rfl
  | cons e rest ih =>
    by_cases h : e.2.addr = a
    · simp [MoveRunningToComplete.loop, h, ih]
    · simp [MoveRunningToComplete.loop, h, ih]

theorem mapFind_eq_none_iff (k : String) (l : List (String × LedgerContext)) :
    mapFind k l = none ↔ k ∉ keys l := by
  induction l with
  | nil => simp [mapFind, keys]
  | cons e rest ih =>
    by_cases h : e.1 = k
    · simp [mapFind, keys, h]
    · have h2 : ¬ k = e.1 := fun hk => h hk.symm
      simp only [mapFind, h, if_false, ih]
      simp [keys, h2]

theorem mapFind_append (k : String) (l1 l2 : List (String × LedgerContext)) :
    mapFind k (l1 ++ l2) = (mapFind k l1).orElse (fun _ => mapFind k l2) := by
  induction l1 with
  | nil => simp [mapFind]
  | cons e rest ih =>
    by_cases h : e.1 = k
    · simp [mapFind, h]
    · simp [mapFind, h, ih]

theorem mapFind_mem (k : String) (l : List (String × LedgerContext)) (c : LedgerContext)
    (h : mapFind k l = some c) : (k, c) ∈ l := by
  induction l with
  | nil => simp [mapFind] at h
  | cons e rest ih =>
    by_cases hk : e.1 = k
    · simp [mapFind, hk] at h
      have : e = (k, c) := by
        cases e; simp_all
      simp [this]
    · simp [mapFind, hk] at h
      exact List.mem_cons_of_mem _ (ih h)

theorem keys_mapInsert_nodup (k : String) (c : LedgerContext) (l : List (String × LedgerContext))
    (h : (keys l).Nodup) : (keys (mapInsert k c l)).Nodup := by
  unfold mapInsert
  cases hf : mapFind k l with
  | some _ => simpa using h
  | none =>
    have hk : k ∉ keys l := (mapFind_eq_none_iff k l).mp hf
    simp only [keys, List.map_append, List.map_cons, List.map_nil] at hk ⊢
    rw [List.nodup_append]
    refine ⟨h, by simp, ?_⟩
    intro a ha hb
    simp at hb
    subst hb
    exact hk ha

theorem mapInsert_of_mapFind_some (k : String) (c c0 : LedgerContext)
    (l : List (String × LedgerContext)) (h : mapFind k l = some c0) : mapInsert k c l = l := by
  simp [mapInsert, h]

theorem mapFind_mapInsert (k k2 : String) (c : LedgerContext)
    (l : List (String × LedgerContext)) :
    mapFind k2 (mapInsert k c l)
      = match mapFind k2 l with
        | some c0 => some c0
        | none => if k = k2 then some c else none := by
  unfold mapInsert
  cases hf : mapFind k l with
  | some c1 =>
    cases hf2 : mapFind k2 l with
    | some c0 => simp [hf2]
    | none =>
      by_cases hk : k = k2
      · subst hk; simp [hf] at hf2
      · simp [hf2, hk]
  | none =>
    simp only [mapFind_append]
    cases hf2 : mapFind k2 l with
    | some c0 => simp
    | none => simp [mapFind]

/-! ## Claims on the registry operations -/

/-- C3 (prune).  `RemoveCompleted(n)` leaves in `completed_ctxs_` exactly the prior entries whose
job has `ledger_seq > n`, in their prior order and unchanged, and leaves `running_ctxs_` as it
was; a following `RemoveCompleted(k)` with `k < n` changes nothing.  In scenario S5 (completed
jobs with sequence numbers 5, 7, 9) `RemoveCompleted(7)` leaves only the job with sequence
number 9 and `completed_size = 1`. -/
theorem RemoveCompleted_prune (m : LedgerContextManager) (n k : Int) (hk : k < n) :
    (RemoveCompleted m n).completed_ctxs_
        = m.completed_ctxs_.filter (fun e => decide (n < e.2.consensus_value_.ledger_seq)) ∧
      (∀ e, e ∈ (RemoveCompleted m n).completed_ctxs_ ↔
          e ∈ m.completed_ctxs_ ∧ n < e.2.consensus_value_.ledger_seq) ∧
      (RemoveCompleted m n).running_ctxs_ = m.running_ctxs_ ∧
      RemoveCompleted (RemoveCompleted m n) k = RemoveCompleted m n ∧
      (pruneDemo.completed_ctxs_.map (fun e => e.2.consensus_value_.ledger_seq) = [5, 7, 9] ∧
        (RemoveCompleted pruneDemo 7).completed_ctxs_.map
            (fun e => e.2.consensus_value_.ledger_seq) = [9] ∧
        (GetModuleStatus (RemoveCompleted pruneDemo 7)).completed_size = 1) := by
  refine ⟨?_, ?_, rfl, ?_, ?_⟩
  · simp [RemoveCompleted, RemoveCompleted_loop_eq_filter]
  · intro e
    simp [RemoveCompleted, RemoveCompleted_loop_eq_filter]
  · simp only [RemoveCompleted, RemoveCompleted_loop_eq_filter, List.filter_filter]
    congr 1
    apply List.filter_congr
    intro e _
    by_cases h : n < e.2.consensus_value_.ledger_seq
    · have : k < e.2.consensus_value_.ledger_seq := lt_trans hk h
      simp [h, this]
    · simp [h]
  · decide

/-- Instance of C3: pruning the S5 registry at 7 and then at 3. -/
theorem RemoveCompleted_prune_witness :
    (3 : Int) < 7 ∧
      RemoveCompleted (RemoveCompleted pruneDemo 7) 3 = RemoveCompleted pruneDemo 7 :=
  ⟨by decide, (RemoveCompleted_prune pruneDemo 7 3 (by decide)).2.2.2.1⟩

/-- C4 (first completer wins).  `MoveRunningToComplete(j1)` removes from `running_ctxs_` exactly
the entries whose pointer is `j1`; `completed_ctxs_` gains the entry `j1.hash_ -> j1` when the
key is absent and is left as it was when the key is present.  When a second job `j2` with the
same hash completes afterwards, `completed_ctxs_` is not changed by it: it holds exactly one
entry for that hash, the job that was there first (`j1` if there was none before). -/
theorem MoveRunningToComplete_first_completer (m : LedgerContextManager)
    (j1 j2 : LedgerContext) (hfp : j2.hash_ = j1.hash_)
    (hmap : (keys m.completed_ctxs_).Nodup) :
    (MoveRunningToComplete m j1).running_ctxs_
        = m.running_ctxs_.filter (fun e => decide (e.2.addr ≠ j1.addr)) ∧
      (MoveRunningToComplete m j1).completed_ctxs_
        = (if (mapFind j1.hash_ m.completed_ctxs_).isSome then m.completed_ctxs_
           else m.completed_ctxs_ ++ [(j1.hash_, j1)]) ∧
      (MoveRunningToComplete (MoveRunningToComplete m j1) j2).completed_ctxs_
        = (MoveRunningToComplete m j1).completed_ctxs_ ∧
      (keys (MoveRunningToComplete (MoveRunningToComplete m j1) j2).completed_ctxs_).count
          j1.hash_ = 1 ∧
      mapFind j1.hash_ (MoveRunningToComplete (MoveRunningToComplete m j1) j2).completed_ctxs_
        = some ((mapFind j1.hash_ m.completed_ctxs_).getD j1) := by
  have hfind : mapFind j1.hash_ (mapInsert j1.hash_ j1 m.completed_ctxs_)
      = some ((mapFind j1.hash_ m.completed_ctxs_).getD j1) := by
    rw [mapFind_mapInsert]
    cases mapFind j1.hash_ m.completed_ctxs_ <;> simp
  have hsecond : mapInsert j2.hash_ j2 (mapInsert j1.hash_ j1 m.completed_ctxs_)
      = mapInsert j1.hash_ j1 m.completed_ctxs_ := by
    rw [hfp]
    exact mapInsert_of_mapFind_some _ _ _ _ hfind
  refine ⟨?_, ?_, ?_, ?_, ?_⟩
  · simp [MoveRunningToComplete, MoveRunningToComplete_loop_eq_filter]
  · simp only [MoveRunningToComplete, mapInsert]
    cases mapFind j1.hash_ m.completed_ctxs_ <;> simp
  · simpa [MoveRunningToComplete] using hsecond
  · have hnd := keys_mapInsert_nodup j1.hash_ j1 m.completed_ctxs_ hmap
    have hmem : j1.hash_ ∈ keys (mapInsert j1.hash_ j1 m.completed_ctxs_) := by
      by_contra hcon
      have := (mapFind_eq_none_iff _ _).mpr hcon
      rw [hfind] at this
      exact Option.noConfusion this
    simp only [MoveRunningToComplete, hsecond]
    exact List.count_eq_one_of_mem hnd hmem
  · simp only [MoveRunningToComplete, hsecond]
    exact hfind

/-! ## Invariants of executions -/

theorem mem_mapInsert (k : String) (c : LedgerContext) (l : List (String × LedgerContext))
    (e : String × LedgerContext) (h : e ∈ mapInsert k c l) : e ∈ l ∨ e = (k, c) := by
  unfold mapInsert at h
  cases hf : mapFind k l with
  | some c0 => rw [hf] at h; exact Or.inl h
  | none =>
    rw [hf] at h
    simp only [List.mem_append, List.mem_singleton] at h
    exact h

theorem AsyncPreProcess_eraseLoop_append (a : Nat) (l : List (String × LedgerContext))
    (k : String) (c : LedgerContext) (h : c.addr = a) :
    AsyncPreProcess.eraseLoop a (l ++ [(k, c)]) = none := by
  induction l with
  | nil => simp [AsyncPreProcess.eraseLoop, h]
  | cons e rest ih =>
    by_cases he : e.2.addr = a
    · simp [AsyncPreProcess.eraseLoop, he]
    · simp [AsyncPreProcess.eraseLoop, he, ih]

theorem NoSharedJob_MoveRunningToComplete (m : LedgerContextManager) (c : LedgerContext)
    (hm : NoSharedJob m) (hc : c.addr < m.heap_next_) : NoSharedJob (MoveRunningToComplete m c) := by
  obtain ⟨h1, h2, h3⟩ := hm
  refine ⟨?_, ?_, ?_⟩
  · intro e he
    simp only [MoveRunningToComplete, MoveRunningToComplete_loop_eq_filter] at he
    exact h1 e (List.mem_of_mem_filter he)
  · intro e he
    simp only [MoveRunningToComplete] at he
    rcases mem_mapInsert _ _ _ _ he with h | h
    · exact h2 e h
    · subst h; exact hc
  · intro r hr e he
    simp only [MoveRunningToComplete, MoveRunningToComplete_loop_eq_filter] at hr he
    have hr2 := List.of_mem_filter hr
    have hr1 := List.mem_of_mem_filter hr
    rcases mem_mapInsert _ _ _ _ he with h | h
    · exact h3 r hr1 e h
    · subst h; simpa using hr2

theorem NoSharedJob_Do (D : Deps) (m : LedgerContextManager) (c : LedgerContext) (a : ApplyOutcome)
    (hm : NoSharedJob m) (hc : c.addr < m.heap_next_) : NoSharedJob (Do D m c a).mgr := by
  unfold Do
  by_cases hl : c.lpmanager_ = true
  · simp only [hl, if_true]
    exact NoSharedJob_MoveRunningToComplete m _ hm hc
  · simp only [hl]
    exact hm

theorem NoSharedJob_bump (m : LedgerContextManager) (hm : NoSharedJob m) :
    NoSharedJob { m with heap_next_ := m.heap_next_ + 1 } := by
  obtain ⟨h1, h2, h3⟩ := hm
  exact ⟨fun e he => Nat.lt_succ_of_lt (h1 e he), fun e he => Nat.lt_succ_of_lt (h2 e he), h3⟩

theorem NoSharedJob_step (D : Deps) (m m1 : LedgerContextManager) (op : Op)
    (hm : NoSharedJob m) (hs : step D m op = some m1) : NoSharedJob m1 := by
  cases op with
  | Async cv timeout callback tti start_ok =>
    simp only [step, AsyncPreProcess] at hs
    by_cases hc : CheckComplete m (fingerprint D cv) > 0
    · simp only [hc, if_true, Option.map_some', Option.some.injEq] at hs
      subst hs; exact hm
    · simp only [hc, if_false] at hs
      cases start_ok with
      | false =>
        simp [multimapInsert, AsyncPreProcess_eraseLoop_append, LedgerContext.newManaged] at hs
      | true =>
        simp only [Bool.not_true, Bool.false_eq_true, if_false, Option.map_some',
          Option.some.injEq] at hs
        subst hs
        obtain ⟨h1, h2, h3⟩ := hm
        refine ⟨?_, ?_, ?_⟩
        · intro e he
          simp only [multimapInsert, List.mem_append, List.mem_singleton] at he
          rcases he with he | he
          · exact Nat.lt_succ_of_lt (h1 e he)
          · subst he; simp [LedgerContext.newManaged]
        · intro e he
          exact Nat.lt_succ_of_lt (h2 e he)
        · intro r hr e he
          simp only [multimapInsert, List.mem_append, List.mem_singleton] at hr
          rcases hr with hr | hr
          · exact h3 r hr e he
          · subst hr
            have := h2 e he
            simp only [LedgerContext.newManaged]
            omega
  | SyncPre cv total_timeout tti w =>
    simp only [step, Option.some.injEq] at hs
    subst hs
    unfold SyncPreProcess
    by_cases hc : CheckComplete m (fingerprint D cv) > 0
    · simp only [hc, if_true]; exact hm
    · simp only [hc, if_false]
      by_cases hst : w.start_ok = true
      · have hd : NoSharedJob (Do D { m with heap_next_ := m.heap_next_ + 1 }
            (LedgerContext.newManaged m.heap_next_ (fingerprint D cv) cv MICRO_UNITS_PER_SEC
              PreProcessCallback.noop) w.apply).mgr :=
          NoSharedJob_Do D _ _ _ (NoSharedJob_bump m hm) (by simp [LedgerContext.newManaged])
        by_cases hto : w.is_timeout = true
        · simpa [hst, hto] using hd
        · simpa [hst, hto] using hd
      · simp only [hst]
        exact NoSharedJob_bump m hm
  | WorkerExit addr a =>
    simp only [step] at hs
    cases hf : m.running_ctxs_.find? (fun e => decide (e.2.addr = addr)) with
    | none => rw [hf] at hs; exact Option.noConfusion hs
    | some e =>
      rw [hf] at hs
      simp only [Option.some.injEq] at hs
      subst hs
      exact NoSharedJob_Do D m e.2 a hm (hm.1 e (List.mem_of_find?_eq_some hf))
  | Remove n =>
    simp only [step, Option.some.injEq] at hs
    subst hs
    obtain ⟨h1, h2, h3⟩ := hm
    refine ⟨h1, ?_, ?_⟩
    · intro e he
      simp only [RemoveCompleted, RemoveCompleted_loop_eq_filter] at he
      exact h2 e (List.mem_of_mem_filter he)
    · intro r hr e he
      simp only [RemoveCompleted, RemoveCompleted_loop_eq_filter] at he
      exact h3 r hr e (List.mem_of_mem_filter he)

theorem NoSharedJob_run (D : Deps) (ops : List Op) (m m1 : LedgerContextManager)
    (hm : NoSharedJob m) (hr : run D m ops = some m1) : NoSharedJob m1 := by
  induction ops generalizing m with
  | nil =>
    simp only [run, Option.some.injEq] at hr
    subst hr; exact hm
  | cons op rest ih =>
    simp only [run] at hr
    cases hs : step D m op with
    | none => rw [hs] at hr; exact Option.noConfusion hr
    | some m2 =>
      rw [hs] at hr
      exact ih m2 (NoSharedJob_step D m m2 op hm hs) hr

theorem NoSharedJob_init : NoSharedJob LedgerContextManager.init := by
  simp [NoSharedJob, LedgerContextManager.init]

theorem raceHalfDone_reachable : Reachable demoDeps raceHalfDone :=
  ⟨[Op.Async raceCv 0 (PreProcessCallback.user 1) (-1) true,
    Op.Async raceCv 0 (PreProcessCallback.user 2) (-1) true,
    Op.WorkerExit 0 (demoApply true)], by decide⟩

/-- Instance of C4 (scenario S6): the two jobs submitted for the same consensus value complete
one after the other; the completed map then holds one entry for the hash. -/
theorem MoveRunningToComplete_first_completer_witness :
    raceJob2.hash_ = raceJob1.hash_ ∧ (keys raceDemo.completed_ctxs_).Nodup ∧
      (keys (MoveRunningToComplete (MoveRunningToComplete raceDemo raceJob1)
          raceJob2).completed_ctxs_).count raceJob1.hash_ = 1 ∧
      mapFind raceJob1.hash_ (MoveRunningToComplete (MoveRunningToComplete raceDemo raceJob1)
          raceJob2).completed_ctxs_ = some ((mapFind raceJob1.hash_ raceDemo.completed_ctxs_).getD
            raceJob1) :=
  ⟨by decide, by decide,
    (MoveRunningToComplete_first_completer raceDemo raceJob1 raceJob2 (by decide)
      (by decide)).2.2.2⟩

/-- C1, as stated, fails: after `AsyncPreProcess` has been called twice for the same consensus
value and the first worker has left `Do`, the hash `"x"` is a key of `running_ctxs_` (the second
job) and of `completed_ctxs_` (the first job). -/
theorem registry_maps_share_fingerprint :
    Reachable demoDeps raceHalfDone ∧
      fingerprint demoDeps raceCv ∈ keys raceHalfDone.running_ctxs_ ∧
      fingerprint demoDeps raceCv ∈ keys raceHalfDone.completed_ctxs_ :=
  ⟨⟨[Op.Async raceCv 0 (PreProcessCallback.user 1) (-1) true,
      Op.Async raceCv 0 (PreProcessCallback.user 2) (-1) true,
      Op.WorkerExit 0 (demoApply true)], by decide⟩, by decide, by decide⟩

/-- C1, amended.  In every registry state reachable from the empty registry by steps of
`AsyncPreProcess`, `SyncPreProcess`, worker exit (`MoveRunningToComplete`) and
`RemoveCompleted`, no job is both in `running_ctxs_` and in `completed_ctxs_`. -/
theorem registry_maps_share_no_job (D : Deps) (m : LedgerContextManager)
    (hreach : Reachable D m) :
    ∀ r ∈ m.running_ctxs_, ∀ c ∈ m.completed_ctxs_, r.2.addr ≠ c.2.addr := by
  obtain ⟨ops, hops⟩ := hreach
  exact (NoSharedJob_run D ops _ m NoSharedJob_init hops).2.2

/-- Instance of amended C1 at the state in which the two maps share a key. -/
theorem registry_maps_share_no_job_witness :
    Reachable demoDeps raceHalfDone ∧
      ∀ r ∈ raceHalfDone.running_ctxs_, ∀ c ∈ raceHalfDone.completed_ctxs_,
        r.2.addr ≠ c.2.addr :=
  ⟨raceHalfDone_reachable, registry_maps_share_no_job demoDeps raceHalfDone raceHalfDone_reachable⟩

/-! ## Claims on the job -/

theorem Cancel_loop_eq (fuel : Nat) (l : List Int) (h : l.length ≤ fuel) :
    Cancel.loop fuel l = l.reverse.map Effect.ContractCancel := by
  induction fuel generalizing l with
  | zero =>
    have : l = [] := List.length_eq_zero.mp (Nat.le_zero.mp h)
    subst this; rfl
  | succ fuel ih =>
    rcases List.eq_nil_or_concat l with hl | ⟨init, last, hl⟩
    · subst hl; rfl
    · subst hl
      have hlen : init.length ≤ fuel := by
        simp at h
        omega
      simp [Cancel.loop, ih init hlen]

theorem pushIds_contract_ids (c : LedgerContext) (ids : List Int) :
    pushIds c ids = { c with contract_ids_ := c.contract_ids_ ++ ids } := by
  induction ids generalizing c with
  | nil => simp [pushIds]
  | cons id rest ih =>
    have := ih (PushContractId c id)
    simp only [pushIds, List.foldl_cons] at this ⊢
    rw [this]
    simp [PushContractId]

/-- C5 (cancellation order).  With the contract ids `ids` pushed in that order on top of
whatever is already on the stack, `Cancel` calls the interpreter's `Cancel` once for each id on
the stack, top first (the reverse of the push order), then joins the worker, and leaves the
job, its `contract_ids_` included, as it was; a pop takes back the last push.  For ids 7, 8, 9
pushed in that order the cancel sequence is 9, 8, 7. -/
theorem Cancel_lifo (c : LedgerContext) (ids : List Int) (id : Int) :
    (Cancel (pushIds c ids)).2
        = (c.contract_ids_ ++ ids).reverse.map Effect.ContractCancel
            ++ [Effect.JoinWithStop c.addr] ∧
      (Cancel (pushIds c ids)).1 = pushIds c ids ∧
      (pushIds c ids).contract_ids_ = c.contract_ids_ ++ ids ∧
      PopContractId (PushContractId c id) = some c ∧
      (Cancel (pushIds freshJob [7, 8, 9])).2
        = [Effect.ContractCancel 9, Effect.ContractCancel 8, Effect.ContractCancel 7,
           Effect.JoinWithStop 0] := by
  refine ⟨?_, rfl, ?_, ?_, by decide⟩
  · rw [pushIds_contract_ids]
    simp only [Cancel]
    rw [Cancel_loop_eq _ _ (le_refl _)]
  · rw [pushIds_contract_ids]
  · cases c
    simp [PopContractId, PushContractId]

/-! ## Decimal rendering of the size -/

theorem digitChar_ne_dash (r : Nat) (h : r < 10) : Nat.digitChar r ≠ '-' := by
  interval_cases r <;> decide

theorem digitChar_val (r : Nat) (h : r < 10) : (Nat.digitChar r).toNat - 48 = r := by
  interval_cases r <;> rfl

theorem toDigitsCore_no_dash (fuel n : Nat) (acc : List Char) (h : ∀ ch ∈ acc, ch ≠ '-') :
    ∀ ch ∈ Nat.toDigitsCore 10 fuel n acc, ch ≠ '-' := by
  induction fuel generalizing n acc with
  | zero => simpa [Nat.toDigitsCore] using h
  | succ fuel ih =>
    have hd : Nat.digitChar (n % 10) ≠ '-' := digitChar_ne_dash _ (Nat.mod_lt _ (by decide))
    have hacc : ∀ ch ∈ Nat.digitChar (n % 10) :: acc, ch ≠ '-' := by
      intro ch hch
      rcases List.mem_cons.mp hch with h1 | h1
      · rw [h1]; exact hd
      · exact h ch h1
    simp only [Nat.toDigitsCore]
    by_cases h0 : n / 10 = 0
    · simpa [h0] using hacc
    · simp only [h0, if_false]
      exact ih _ _ hacc

theorem toDigitsCore_val (fuel n : Nat) (acc : List Char) (h : n < fuel) :
    decVal (Nat.toDigitsCore 10 fuel n acc) 0 = decVal acc n := by
  induction fuel generalizing n acc with
  | zero => omega
  | succ fuel ih =>
    simp only [Nat.toDigitsCore]
    by_cases h0 : n / 10 = 0
    · simp only [h0, if_true]
      have hn : n % 10 = n := by omega
      have hv := digitChar_val _ (Nat.mod_lt n (by decide : 0 < 10))
      simp only [decVal, List.foldl_cons]
      rw [hv, hn]
      simp
    · simp only [h0, if_false]
      have hlt : n / 10 < fuel := by omega
      rw [ih _ _ hlt]
      have : 10 * (n / 10) + n % 10 = n := Nat.div_add_mod n 10
      simp [decVal, digitChar_val _ (Nat.mod_lt n (by decide : 0 < 10)), this]

theorem toDigits_injective (j k : Nat) (h : Nat.toDigits 10 j = Nat.toDigits 10 k) : j = k := by
  have hj := toDigitsCore_val (j + 1) j [] (Nat.lt_succ_self j)
  have hk := toDigitsCore_val (k + 1) k [] (Nat.lt_succ_self k)
  simp only [Nat.toDigits] at h
  rw [h, hk] at hj
  simpa [decVal] using hj.symm

theorem append_sep_left {α : Type} (x : α) (l1 l2 r1 r2 : List α) (h1 : x ∉ l1) (h2 : x ∉ l2)
    (h : l1 ++ x :: r1 = l2 ++ x :: r2) : l1 = l2 := by
  induction l1 generalizing l2 with
  | nil =>
    cases l2 with
    | nil => rfl
    | cons b l2 =>
      simp at h
      exact absurd h.1 (by intro hx; apply h2; simp [hx])
  | cons a l1 ih =>
    cases l2 with
    | nil =>
      simp at h
      exact absurd h.1 (by intro hx; apply h1; simp [hx])
    | cons b l2 =>
      simp at h
      obtain ⟨hab, ht⟩ := h
      subst hab
      rw [ih l2 (fun hx => h1 (List.mem_cons_of_mem _ hx)) (fun hx => h2 (List.mem_cons_of_mem _ hx)) ht]


theorem printfFormat_size_injective (j k : Nat) (a b : List Char)
    (h : printfFormat j a = printfFormat k b) : j = k := by
  have hd := congrArg String.data h
  simp only [printfFormat] at hd
  apply toDigits_injective
  exact append_sep_left '-' _ _ _ _
    (fun hx => toDigitsCore_no_dash _ _ [] (by simp) _ hx rfl)
    (fun hx => toDigitsCore_no_dash _ _ [] (by simp) _ hx rfl) hd

theorem printfFormat_text (n : Nat) (a : List Char) :
    printfFormat n a = toString n ++ "-" ++ String.mk a := by
  apply String.ext
  simp [printfFormat, toString, Nat.repr, String.data_append, List.asString]

theorem c_str_of_no_nul (address : String) (h : Char.ofNat 0 ∉ address.data) :
    String.mk (c_str address) = address := by
  apply String.ext
  unfold c_str
  simp only
  rw [List.takeWhile_eq_self_iff]
  intro ch hch
  simp only [ne_eq, decide_eq_true_eq]
  intro heq
  exact h (heq ▸ hch)

theorem keyLe_total (a b : List Char) : keyLe a b = true ∨ keyLe b a = true := by
  induction a generalizing b with
  | nil => left; cases b <;> rfl
  | cons x xs ih =>
    cases b with
    | nil => right; rfl
    | cons y ys =>
      rcases Nat.lt_trichotomy x.toNat y.toNat with h | h | h
      · left; simp [keyLe, h]
      · rcases ih ys with h2 | h2
        · left; simp [keyLe, h, h2]
        · right; simp [keyLe, h, h2]
      · right; simp [keyLe, h]

theorem keyLe_trans (a b c : List Char) (hab : keyLe a b = true) (hbc : keyLe b c = true) :
    keyLe a c = true := by
  induction a generalizing b c with
  | nil => cases c <;> rfl
  | cons x xs ih =>
    cases b with
    | nil => simp [keyLe] at hab
    | cons y ys =>
      cases c with
      | nil => simp [keyLe] at hbc
      | cons z zs =>
        simp only [keyLe] at hab hbc ⊢
        by_cases h1 : x.toNat < y.toNat
        · by_cases h2 : y.toNat < z.toNat
          · have : x.toNat < z.toNat := by omega
            simp [this]
          · simp only [h2, if_false] at hbc
            by_cases h3 : y.toNat = z.toNat
            · have : x.toNat < z.toNat := by omega
              simp [this]
            · simp [h3] at hbc
        · simp only [h1, if_false] at hab
          by_cases h4 : x.toNat = y.toNat
          · simp only [h4, if_true] at hab
            by_cases h2 : y.toNat < z.toNat
            · have : x.toNat < z.toNat := by omega
              simp [this]
            · simp only [h2, if_false] at hbc
              by_cases h3 : y.toNat = z.toNat
              · simp only [h3, if_true] at hbc
                have hxz : x.toNat = z.toNat := by omega
                have hlt : ¬ x.toNat < z.toNat := by omega
                rw [if_neg hlt, if_pos hxz]
                exact ih ys zs hab hbc
              · simp [h3] at hbc
          · simp [h4] at hab

theorem PushLog_loop_eq (item lines : List String) : PushLog.loop item lines = item ++ lines := by
  induction lines generalizing item with
  | nil => simp [PushLog.loop]
  | cons line rest ih => simp [PushLog.loop, ih]

theorem map_orderedInsert_new (key : String) (lines : List String)
    (obj : List (String × List String)) (hnew : ∀ e ∈ obj, e.1 ≠ key) :
    (obj.orderedInsert memberLe (key, [])).map
        (fun e => if e.1 = key then (e.1, e.2 ++ lines) else e)
      = obj.orderedInsert memberLe (key, lines) := by
  induction obj with
  | nil => simp
  | cons b rest ih =>
    have hb : b.1 ≠ key := hnew b (List.mem_cons_self _ _)
    have hrest : ∀ e ∈ rest, e.1 ≠ key := fun e he => hnew e (List.mem_cons_of_mem _ he)
    have hmap : rest.map (fun e => if e.1 = key then (e.1, e.2 ++ lines) else e) = rest := by
      conv_rhs => rw [← List.map_id rest]
      apply List.map_congr_left
      intro e he
      simp [hrest e he]
    by_cases hle : keyLe key.data b.1.data = true
    · have h1 : memberLe (key, ([] : List String)) b := hle
      have h2 : memberLe (key, lines) b := hle
      rw [List.orderedInsert_of_le _ _ h1, List.orderedInsert_of_le _ _ h2]
      simp [hb, hmap]
    · have h1 : ¬ memberLe (key, ([] : List String)) b := hle
      have h2 : ¬ memberLe (key, lines) b := hle
      simp only [List.orderedInsert, h1, h2, if_false, List.map_cons, hb, ih hrest]

theorem PushLog_new_entry (Format : Nat → List Char → String)
    (hinj : ∀ j k a b, Format j a = Format k b → j = k)
    (c : LedgerContext) (n : Nat) (address : String)
    (lines : List String) (h : LogsShape Format c.logs_ n) :
    Format n (c_str address) ∉ c.logs_.map Prod.fst ∧
      (PushLog Format c address lines).logs_
        = c.logs_.orderedInsert memberLe (Format n (c_str address), lines) := by
  obtain ⟨hlen, hkeys⟩ := h
  have hnew : ∀ e ∈ c.logs_, e.1 ≠ Format n (c_str address) := by
    intro e he heq
    obtain ⟨j, a, hj, hja⟩ := hkeys e he
    rw [hja] at heq
    have := hinj _ _ _ _ heq
    omega
  refine ⟨?_, ?_⟩
  · intro hmem
    obtain ⟨e, he, heq⟩ := List.mem_map.mp hmem
    exact hnew e he heq
  · have hany : (c.logs_.any fun e => e.1 == Format n (c_str address)) = false := by
      rw [List.any_eq_false]
      intro e he
      simpa using hnew e he
    simp only [PushLog, jsonMember, hlen, hany, Bool.false_eq_true, if_false, PushLog_loop_eq]
    exact map_orderedInsert_new _ lines _ hnew

theorem LogsShape_PushLog (Format : Nat → List Char → String)
    (hinj : ∀ j k a b, Format j a = Format k b → j = k)
    (c : LedgerContext) (n : Nat) (address : String)
    (lines : List String) (h : LogsShape Format c.logs_ n) :
    LogsShape Format (PushLog Format c address lines).logs_ (n + 1) := by
  rw [(PushLog_new_entry Format hinj c n address lines h).2]
  obtain ⟨hlen, hkeys⟩ := h
  refine ⟨by simp [List.orderedInsert_length, hlen], ?_⟩
  intro e he
  rcases (List.mem_orderedInsert memberLe).mp he with h1 | h1
  · subst h1
    exact ⟨n, c_str address, Nat.lt_succ_self n, rfl⟩
  · obtain ⟨j, a, hj, hja⟩ := hkeys e h1
    exact ⟨j, a, Nat.lt_succ_of_lt hj, hja⟩

theorem pushLogs_logs (Format : Nat → List Char → String)
    (hinj : ∀ j k a b, Format j a = Format k b → j = k)
    (calls : List (String × List String)) (c : LedgerContext) (n : Nat)
    (h : LogsShape Format c.logs_ n) (hs : c.logs_.Sorted memberLe) :
    (pushLogs Format c calls).logs_.Perm
        (c.logs_ ++ (calls.enumFrom n).map (fun p => (Format p.1 (c_str p.2.1), p.2.2))) ∧
      LogsShape Format (pushLogs Format c calls).logs_ (n + calls.length) ∧
      (pushLogs Format c calls).logs_.Sorted memberLe := by
  haveI : IsTotal (String × List String) memberLe := ⟨fun a b => keyLe_total _ _⟩
  haveI : IsTrans (String × List String) memberLe := ⟨fun a b c => keyLe_trans _ _ _⟩
  induction calls generalizing c n with
  | nil => simpa [pushLogs] using ⟨h, hs⟩
  | cons call rest ih =>
    have hshape := LogsShape_PushLog Format hinj c n call.1 call.2 h
    have hentry := (PushLog_new_entry Format hinj c n call.1 call.2 h).2
    have hsorted : (PushLog Format c call.1 call.2).logs_.Sorted memberLe := by
      rw [hentry]
      exact List.Sorted.orderedInsert _ _ hs
    obtain ⟨h1, h2, h3⟩ := ih (PushLog Format c call.1 call.2) (n + 1) hshape hsorted
    simp only [pushLogs, List.foldl_cons] at h1 h2 h3 ⊢
    refine ⟨?_, ?_, h3⟩
    · refine h1.trans ?_
      rw [hentry]
      simp only [List.enumFrom, List.map_cons]
      refine (List.Perm.append_right _ (List.perm_orderedInsert memberLe _ _)).trans ?_
      rw [List.cons_append]
      exact List.perm_middle.symm
    · have : n + (rest.length + 1) = n + 1 + rest.length := by omega
      rw [List.length_cons, this]
      exact h2

/-- C10, as stated, fails: the first `PushLog` on a job with empty logs, called with the address
`a`, NUL, `b`, files its lines under the key `"0-a"`, which is not `"0-"` followed by the
address: the address is handed to the formatter as `address.c_str()`. -/
theorem PushLog_key_stops_at_nul :
    freshJob.logs_ = [] ∧
      (PushLog printfFormat freshJob nulAddress ["x"]).logs_ = [("0-a", ["x"])] ∧
      "0-a" ≠ "0-" ++ nulAddress := by
  decide

/-- C10, amended.  On a job whose `logs_` is empty, after the calls `PushLog(address_k, lines_k)`
for `k = 0 .. n-1`, `logs_` holds exactly `n` entries, one for each call: the entry of call `k`
has the key `Format(FMT_SIZE "-%s", k, address_k.c_str())`, which `printf` prints as `k` in
decimal, a dash and the address up to its first NUL character (the whole address when it has
none), and holds exactly `lines_k` in order.  The keys are pairwise different, and the object
lists its members in the order of their keys.  The next call, number `n`, uses a key no earlier
entry has, whatever the addresses are (empty, containing a dash or a NUL), leaves every earlier
entry as it was and in its place, and adds one entry holding its lines. -/
theorem PushLog_append_only (c : LedgerContext) (calls : List (String × List String))
    (address : String) (lines : List String) (hc : c.logs_ = []) :
    (pushLogs printfFormat c calls).logs_.Perm (logEntries printfFormat calls) ∧
      (pushLogs printfFormat c calls).logs_.length = calls.length ∧
      ((pushLogs printfFormat c calls).logs_.map Prod.fst).Nodup ∧
      (pushLogs printfFormat c calls).logs_.Sorted memberLe ∧
      printfFormat calls.length (c_str address)
        ∉ (pushLogs printfFormat c calls).logs_.map Prod.fst ∧
      (PushLog printfFormat (pushLogs printfFormat c calls) address lines).logs_.Perm
        ((printfFormat calls.length (c_str address), lines)
          :: (pushLogs printfFormat c calls).logs_) ∧
      (pushLogs printfFormat c calls).logs_.Sublist
        (PushLog printfFormat (pushLogs printfFormat c calls) address lines).logs_ ∧
      printfFormat calls.length (c_str address)
        = toString calls.length ++ "-" ++ String.mk (c_str address) ∧
      (Char.ofNat 0 ∉ address.data → String.mk (c_str address) = address) := by
  have h0 : LogsShape printfFormat c.logs_ 0 := by simp [LogsShape, hc]
  have hs0 : c.logs_.Sorted memberLe := by simp [hc]
  obtain ⟨h1, h2, h3⟩ :=
    pushLogs_logs printfFormat printfFormat_size_injective calls c 0 h0 hs0
  rw [hc, List.nil_append] at h1
  rw [Nat.zero_add] at h2
  have hnew := PushLog_new_entry printfFormat printfFormat_size_injective
    (pushLogs printfFormat c calls) calls.length address lines h2
  have hnodup : ((logEntries printfFormat calls).map Prod.fst).Nodup := by
    simp only [logEntries, List.enum, List.map_map]
    rw [List.nodup_iff_injective_get]
    intro i j hij
    simp only [List.get_eq_getElem, List.getElem_map, Function.comp,
      List.getElem_enumFrom] at hij
    have := printfFormat_size_injective _ _ _ _ hij
    apply Fin.ext
    omega
  refine ⟨h1, h2.1, ?_, h3, hnew.1, ?_, ?_, printfFormat_text _ _, c_str_of_no_nul _⟩
  · exact ((h1.map Prod.fst).nodup_iff).mpr hnodup
  · rw [hnew.2]
    exact List.perm_orderedInsert memberLe _ _
  · rw [hnew.2]
    exact List.sublist_orderedInsert _ _

/-- Instance of amended C10: ten calls with an empty address and no lines, then a call with the
address `z`, whose entry `"10-z"` is filed between `"1-"` and `"2-"`. -/
theorem PushLog_append_only_witness :
    freshJob.logs_ = [] ∧
      (PushLog printfFormat (pushLogs printfFormat freshJob (List.replicate 10 ("", [])))
          "z" ["w"]).logs_.Perm
        ((printfFormat 10 (c_str "z"), ["w"])
          :: (pushLogs printfFormat freshJob (List.replicate 10 ("", []))).logs_) ∧
      (PushLog printfFormat (pushLogs printfFormat freshJob (List.replicate 10 ("", [])))
          "z" ["w"]).logs_
        = [("0-", []), ("1-", []), ("10-z", ["w"]), ("2-", []), ("3-", []), ("4-", []),
           ("5-", []), ("6-", []), ("7-", []), ("8-", []), ("9-", [])] ∧
      String.mk (c_str "z") = "z" :=
  ⟨rfl,
    (PushLog_append_only freshJob (List.replicate 10 ("", [])) "z" ["w"] rfl).2.2.2.2.2.1,
    by decide,
    (PushLog_append_only freshJob (List.replicate 10 ("", [])) "z" ["w"] rfl).2.2.2.2.2.2.2.2
      (by decide)⟩

/-! ## Cache lookups of the orchestrator -/

theorem CheckComplete_pos_iff (m : LedgerContextManager) (chash : String) :
    0 < CheckComplete m chash ↔
      ∃ c, mapFind chash m.completed_ctxs_ = some c ∧ c.exe_result_ = true := by
  unfold CheckComplete
  cases mapFind chash m.completed_ctxs_ with
  | none => simp
  | some c => cases h : c.exe_result_ <;> simp [h]

theorem CheckComplete_eq_one_iff (m : LedgerContextManager) (chash : String) :
    CheckComplete m chash = 1 ↔ 0 < CheckComplete m chash := by
  unfold CheckComplete
  cases mapFind chash m.completed_ctxs_ with
  | none => simp
  | some c => cases h : c.exe_result_ <;> simp [h]

theorem CheckComplete_eq_zero_iff (m : LedgerContextManager) (chash : String) :
    CheckComplete m chash = 0 ↔
      ∃ c, mapFind chash m.completed_ctxs_ = some c ∧ c.exe_result_ = false := by
  unfold CheckComplete
  cases mapFind chash m.completed_ctxs_ with
  | none => simp
  | some c => cases h : c.exe_result_ <;> simp [h]

theorem SyncPreProcess_of_pos (D : Deps) (m : LedgerContextManager) (cv : ConsensusValue)
    (total_timeout timeout_tx_index : Int) (w : WorkerRun)
    (h : 0 < CheckComplete m (fingerprint D cv)) :
    SyncPreProcess D m cv total_timeout timeout_tx_index w
      = { ret := true, timeout_tx_index := timeout_tx_index, mgr := m, effects := [] } := by
  have h1 := (CheckComplete_eq_one_iff m (fingerprint D cv)).mpr h
  simp [SyncPreProcess, h1]

/-- C6, as stated, fails: with a successful job cached for the consensus value and the output
variable holding 5 at the call, `SyncPreProcess` returns true and the output still holds 5,
not -1. -/
theorem SyncPreProcess_hit_keeps_index :
    0 < CheckComplete cachedOk (fingerprint demoDeps cachedCv) ∧
      (SyncPreProcess demoDeps cachedOk cachedCv 0 5 (demoRun true)).ret = true ∧
      (SyncPreProcess demoDeps cachedOk cachedCv 0 5 (demoRun true)).timeout_tx_index = 5 ∧
      (SyncPreProcess demoDeps cachedOk cachedCv 0 5 (demoRun true)).timeout_tx_index ≠ -1 := by
  decide

/-- C6, amended.  When `CheckComplete` is positive for the fingerprint of the consensus value,
`SyncPreProcess` returns the cached outcome, true, and does not write `timeout_tx_index`: the
output keeps the value it had at the call.  No job is created and the registry is unchanged. -/
theorem SyncPreProcess_cache_hit (D : Deps) (m : LedgerContextManager) (cv : ConsensusValue)
    (total_timeout timeout_tx_index : Int) (w : WorkerRun)
    (h : 0 < CheckComplete m (fingerprint D cv)) :
    (SyncPreProcess D m cv total_timeout timeout_tx_index w).ret = true ∧
      (SyncPreProcess D m cv total_timeout timeout_tx_index w).timeout_tx_index
        = timeout_tx_index ∧
      (SyncPreProcess D m cv total_timeout timeout_tx_index w).mgr = m ∧
      (SyncPreProcess D m cv total_timeout timeout_tx_index w).effects = [] := by
  rw [SyncPreProcess_of_pos D m cv total_timeout timeout_tx_index w h]
  exact ⟨rfl, rfl, rfl, rfl⟩

/-- Instance of amended C6 with the output variable holding -1 at the call. -/
theorem SyncPreProcess_cache_hit_witness :
    0 < CheckComplete cachedOk (fingerprint demoDeps cachedCv) ∧
      (SyncPreProcess demoDeps cachedOk cachedCv 0 (-1) failedStart).ret = true ∧
      (SyncPreProcess demoDeps cachedOk cachedCv 0 (-1) failedStart).timeout_tx_index = -1 ∧
      (SyncPreProcess demoDeps cachedOk cachedCv 0 (-1) failedStart).mgr = cachedOk ∧
      (SyncPreProcess demoDeps cachedOk cachedCv 0 (-1) failedStart).effects = [] :=
  ⟨by decide, SyncPreProcess_cache_hit demoDeps cachedOk cachedCv 0 (-1) failedStart (by decide)⟩

/-- C7, as stated, fails: with a failed job cached for the consensus value (`CheckComplete`
returns 0), `SyncPreProcess` creates a job, starts a worker that runs the applier, and returns
true. -/
theorem SyncPreProcess_reruns_cached_failure :
    CheckComplete cachedFail (fingerprint demoDeps cachedCv) = 0 ∧
      (SyncPreProcess demoDeps cachedFail cachedCv 0 (-1) (demoRun true)).ret = true ∧
      (SyncPreProcess demoDeps cachedFail cachedCv 0 (-1) (demoRun true)).effects
        = [Effect.New 1, Effect.Start 1 "process-value" true, Effect.Apply 1,
           Effect.Callback PreProcessCallback.noop true] := by
  decide

/-- C7, amended.  When `completed_ctxs_` holds a failed job for the fingerprint (`CheckComplete`
returns 0), `SyncPreProcess` does not answer from the cache: it creates a job and tries to
start a worker for it, as it does when nothing is cached.  It returns false exactly when the
worker does not start or the total timeout expires, and the failed job stays cached. -/
theorem SyncPreProcess_cached_failure (D : Deps) (m : LedgerContextManager)
    (cv : ConsensusValue) (total_timeout timeout_tx_index : Int) (w : WorkerRun)
    (h : CheckComplete m (fingerprint D cv) = 0) :
    (SyncPreProcess D m cv total_timeout timeout_tx_index w).effects.take 2
        = [Effect.New m.heap_next_, Effect.Start m.heap_next_ "process-value" w.start_ok] ∧
      (SyncPreProcess D m cv total_timeout timeout_tx_index w).ret
        = (w.start_ok && !w.is_timeout) ∧
      (SyncPreProcess D m cv total_timeout timeout_tx_index w).mgr.completed_ctxs_
        = m.completed_ctxs_ ∧
      CheckComplete (SyncPreProcess D m cv total_timeout timeout_tx_index w).mgr
        (fingerprint D cv) = 0 := by
  obtain ⟨c0, hc0, _⟩ := (CheckComplete_eq_zero_iff m (fingerprint D cv)).mp h
  have hins : ∀ j : LedgerContext,
      mapInsert (fingerprint D cv) j m.completed_ctxs_ = m.completed_ctxs_ :=
    fun j => mapInsert_of_mapFind_some _ j c0 _ hc0
  have hcompleted : (SyncPreProcess D m cv total_timeout timeout_tx_index w).mgr.completed_ctxs_
      = m.completed_ctxs_ := by
    cases hs : w.start_ok <;> cases ht : w.is_timeout <;>
      simp [SyncPreProcess, h, hs, ht, Do, LedgerContext.newManaged, MoveRunningToComplete, hins]
  refine ⟨?_, ?_, hcompleted, ?_⟩
  · cases hs : w.start_ok <;> cases ht : w.is_timeout <;>
      simp [SyncPreProcess, h, hs, ht, LedgerContext.newManaged]
  · cases hs : w.start_ok <;> cases ht : w.is_timeout <;>
      simp [SyncPreProcess, h, hs, ht]
  · unfold CheckComplete at h ⊢
    rw [hcompleted]
    exact h

/-- Instance of amended C7 with a worker that cannot be started. -/
theorem SyncPreProcess_cached_failure_witness :
    CheckComplete cachedFail (fingerprint demoDeps cachedCv) = 0 ∧
      (SyncPreProcess demoDeps cachedFail cachedCv 0 7 failedStart).ret = false ∧
      (SyncPreProcess demoDeps cachedFail cachedCv 0 7 failedStart).effects.take 2
        = [Effect.New 1, Effect.Start 1 "process-value" false] :=
  ⟨by decide,
    (SyncPreProcess_cached_failure demoDeps cachedFail cachedCv 0 7 failedStart (by decide)).2.1,
    (SyncPreProcess_cached_failure demoDeps cachedFail cachedCv 0 7 failedStart (by decide)).1⟩

/-- C9 (`SyncProcess` never touches the registry).  `SyncProcess` leaves the registry, both
maps included, as it was.  If `completed_ctxs_` holds a job for the fingerprint, its
`closing_ledger_` is returned and nothing is called (no applier, no callback).  Otherwise `Do`
runs on a local job built without manager and with `sync_` set: the applier is called once, no
callback is called, and the `closing_ledger_` of that job is returned, its header filled from
the consensus value. -/
theorem SyncProcess_frame (D : Deps) (m : LedgerContextManager) (cv : ConsensusValue)
    (a : ApplyOutcome) :
    (SyncProcess D m cv a).mgr = m ∧
      (∀ c, mapFind (fingerprint D cv) m.completed_ctxs_ = some c →
        (SyncProcess D m cv a).ledger = c.closing_ledger_ ∧
        (SyncProcess D m cv a).effects = []) ∧
      (mapFind (fingerprint D cv) m.completed_ctxs_ = none →
        (LedgerContext.new m.heap_next_ (fingerprint D cv) cv (-1)).lpmanager_ = false ∧
        (LedgerContext.new m.heap_next_ (fingerprint D cv) cv (-1)).sync_ = true ∧
        (SyncProcess D m cv a).ledger
          = (Do D m (LedgerContext.new m.heap_next_ (fingerprint D cv) cv (-1)) a).ctx.closing_ledger_ ∧
        (SyncProcess D m cv a).effects = [Effect.Apply m.heap_next_] ∧
        (SyncProcess D m cv a).ledger.header.seq = cv.ledger_seq ∧
        (SyncProcess D m cv a).ledger.header.consensus_value_hash = fingerprint D cv) := by
  refine ⟨?_, ?_, ?_⟩
  · cases hc : mapFind (fingerprint D cv) m.completed_ctxs_ with
    | some c => simp [SyncProcess, hc]
    | none => simp [SyncProcess, hc, Do, LedgerContext.new]
  · intro c hc
    simp [SyncProcess, hc]
  · intro hc
    simp [SyncProcess, hc, Do, LedgerContext.new]

/-- Instance of C9: a cached job is answered from the map, an unknown value is applied on a
local job, and the registry is the same afterwards in both cases. -/
theorem SyncProcess_frame_witness :
    (∃ c, mapFind (fingerprint demoDeps cachedCv) cachedOk.completed_ctxs_ = some c ∧
        (SyncProcess demoDeps cachedOk cachedCv (demoApply true)).ledger = c.closing_ledger_ ∧
        (SyncProcess demoDeps cachedOk cachedCv (demoApply true)).effects = []) ∧
      (mapFind (fingerprint demoDeps raceCv) cachedOk.completed_ctxs_ = none ∧
        (SyncProcess demoDeps cachedOk raceCv (demoApply true)).effects = [Effect.Apply 1] ∧
        (SyncProcess demoDeps cachedOk raceCv (demoApply true)).mgr = cachedOk) :=
  ⟨⟨(Do demoDeps { LedgerContextManager.init with heap_next_ := 1 }
        (LedgerContext.newManaged 0 "y" cachedCv MICRO_UNITS_PER_SEC PreProcessCallback.noop)
        (demoApply true)).ctx, by decide,
      (SyncProcess_frame demoDeps cachedOk cachedCv (demoApply true)).2.1 _ (by decide)⟩,
    by decide,
    ((SyncProcess_frame demoDeps cachedOk raceCv (demoApply true)).2.2 (by decide)).2.2.2.1,
    (SyncProcess_frame demoDeps cachedOk raceCv (demoApply true)).1⟩

/-! ## `AsyncPreProcess` -/

theorem AsyncPreProcess_cached (D : Deps) (m : LedgerContextManager) (cv : ConsensusValue)
    (timeout : Int) (callback : PreProcessCallback) (timeout_tx_index : Int) (start_ok : Bool)
    (h : 0 < CheckComplete m (fingerprint D cv)) :
    AsyncPreProcess D m cv timeout callback timeout_tx_index start_ok
      = some { ret := 1, timeout_tx_index := timeout_tx_index, mgr := m, effects := [] } := by
  have h1 := (CheckComplete_eq_one_iff m (fingerprint D cv)).mpr h
  simp [AsyncPreProcess, h1]

theorem AsyncPreProcess_started (D : Deps) (m : LedgerContextManager) (cv : ConsensusValue)
    (timeout : Int) (callback : PreProcessCallback) (timeout_tx_index : Int)
    (h : ¬ 0 < CheckComplete m (fingerprint D cv)) :
    AsyncPreProcess D m cv timeout callback timeout_tx_index true
      = some { ret := -1, timeout_tx_index := timeout_tx_index,
               mgr := { m with
                 heap_next_ := m.heap_next_ + 1,
                 running_ctxs_ := m.running_ctxs_ ++ [(fingerprint D cv,
                   LedgerContext.newManaged m.heap_next_ (fingerprint D cv) cv
                     MICRO_UNITS_PER_SEC callback)] },
               effects := [Effect.New m.heap_next_,
                           Effect.Start m.heap_next_ "process-value" true] } := by
  simp [AsyncPreProcess, h, multimapInsert, LedgerContext.newManaged]

theorem AsyncPreProcess_start_failure (D : Deps) (m : LedgerContextManager)
    (cv : ConsensusValue) (timeout : Int) (callback : PreProcessCallback)
    (timeout_tx_index : Int) (h : ¬ 0 < CheckComplete m (fingerprint D cv)) :
    AsyncPreProcess D m cv timeout callback timeout_tx_index false = none := by
  simp [AsyncPreProcess, h, multimapInsert, AsyncPreProcess_eraseLoop_append,
    LedgerContext.newManaged]

/-- C8, the start-failure branch on the code.  On the empty registry, and on a registry with two
other jobs enlisted, `AsyncPreProcess` with a worker thread that cannot be started has no
defined outcome: the erase loop finds the job it has just enlisted, erases the entry and,
having no `break`, increments the erased iterator.  So the call does not return 0 with
`running_ctxs_` as before the call.  With the same inputs and a worker that starts the call
returns -1 and enlists exactly one job. -/
theorem AsyncPreProcess_start_failure_undefined :
    AsyncPreProcess demoDeps LedgerContextManager.init raceCv 0 (PreProcessCallback.user 1) 7
        false = none ∧
      AsyncPreProcess demoDeps raceDemo cachedCv 0 (PreProcessCallback.user 1) 7 false = none ∧
      AsyncPreProcess demoDeps LedgerContextManager.init raceCv 0 (PreProcessCallback.user 1) 7
        true
        = some { ret := -1, timeout_tx_index := 7,
                 mgr := { running_ctxs_ := [("x", LedgerContext.newManaged 0 "x" raceCv
                            MICRO_UNITS_PER_SEC (PreProcessCallback.user 1))],
                          completed_ctxs_ := [], heap_next_ := 1 },
                 effects := [Effect.New 0, Effect.Start 0 "process-value" true] } :=
  ⟨AsyncPreProcess_start_failure demoDeps LedgerContextManager.init raceCv 0
      (PreProcessCallback.user 1) 7 (by decide),
    AsyncPreProcess_start_failure demoDeps raceDemo cachedCv 0 (PreProcessCallback.user 1) 7
      (by decide),
    by decide⟩

/-! ## Persistence of cached jobs -/

theorem mapFind_mapInsert_of_some (k k2 : String) (c j : LedgerContext)
    (l : List (String × LedgerContext)) (h : mapFind k2 l = some j) :
    mapFind k2 (mapInsert k c l) = some j := by
  rw [mapFind_mapInsert, h]

theorem mapFind_filter_of_some (k : String) (j : LedgerContext) (p : LedgerContext → Bool)
    (l : List (String × LedgerContext)) (h : mapFind k l = some j) (hp : p j = true) :
    mapFind k (l.filter (fun e => p e.2)) = some j := by
  induction l with
  | nil => simp [mapFind] at h
  | cons e rest ih =>
    by_cases hk : e.1 = k
    · simp only [mapFind, hk, if_true, Option.some.injEq] at h
      have hpe : p e.2 = true := by rw [h]; exact hp
      rw [List.filter_cons_of_pos (by simpa using hpe)]
      simp [mapFind, hk, h]
    · simp only [mapFind, hk, if_false] at h
      cases hpe : p e.2 with
      | true =>
        rw [List.filter_cons_of_pos (by simpa using hpe)]
        simp [mapFind, hk, ih h]
      | false =>
        rw [List.filter_cons_of_neg (by simp [hpe])]
        exact ih h

theorem Do_completed_of_some (D : Deps) (m : LedgerContextManager) (c : LedgerContext)
    (a : ApplyOutcome) (k : String) (j : LedgerContext)
    (h : mapFind k m.completed_ctxs_ = some j) :
    mapFind k (Do D m c a).mgr.completed_ctxs_ = some j := by
  unfold Do
  by_cases hl : c.lpmanager_ = true
  · simp only [hl, if_true, MoveRunningToComplete]
    exact mapFind_mapInsert_of_some _ _ _ _ _ h
  · simp only [hl]
    exact h

theorem cached_step (D : Deps) (m m1 : LedgerContextManager) (op : Op) (k : String)
    (j : LedgerContext) (h : mapFind k m.completed_ctxs_ = some j)
    (hop : ∀ n, op = Op.Remove n → n < j.consensus_value_.ledger_seq)
    (hs : step D m op = some m1) : mapFind k m1.completed_ctxs_ = some j := by
  cases op with
  | Async cv timeout callback tti start_ok =>
    simp only [step, AsyncPreProcess] at hs
    by_cases hc : CheckComplete m (fingerprint D cv) > 0
    · simp only [hc, if_true, Option.map_some', Option.some.injEq] at hs
      subst hs; exact h
    · simp only [hc, if_false] at hs
      cases start_ok with
      | false =>
        simp [multimapInsert, AsyncPreProcess_eraseLoop_append, LedgerContext.newManaged] at hs
      | true =>
        simp only [Bool.not_true, Bool.false_eq_true, if_false, Option.map_some',
          Option.some.injEq] at hs
        subst hs; exact h
  | SyncPre cv total_timeout tti w =>
    simp only [step, Option.some.injEq] at hs
    subst hs
    unfold SyncPreProcess
    by_cases hc : CheckComplete m (fingerprint D cv) > 0
    · simp only [hc, if_true]; exact h
    · simp only [hc, if_false]
      by_cases hst : w.start_ok = true
      · have hd := Do_completed_of_some D { m with heap_next_ := m.heap_next_ + 1 }
            (LedgerContext.newManaged m.heap_next_ (fingerprint D cv) cv MICRO_UNITS_PER_SEC
              PreProcessCallback.noop) w.apply k j h
        by_cases hto : w.is_timeout = true
        · simpa [hst, hto] using hd
        · simpa [hst, hto] using hd
      · simp only [hst]
        exact h
  | WorkerExit addr a =>
    simp only [step] at hs
    cases hf : m.running_ctxs_.find? (fun e => decide (e.2.addr = addr)) with
    | none => rw [hf] at hs; exact Option.noConfusion hs
    | some e =>
      rw [hf] at hs
      simp only [Option.some.injEq] at hs
      subst hs
      exact Do_completed_of_some D m e.2 a k j h
  | Remove n =>
    simp only [step, Option.some.injEq] at hs
    subst hs
    have hn := hop n rfl
    simp only [RemoveCompleted, RemoveCompleted_loop_eq_filter]
    exact mapFind_filter_of_some k j
      (fun c => decide (n < c.consensus_value_.ledger_seq)) _ h (by simpa using hn)

theorem cached_run (D : Deps) (ops : List Op) (m m1 : LedgerContextManager) (k : String)
    (j : LedgerContext) (h : mapFind k m.completed_ctxs_ = some j)
    (hops : ∀ n, Op.Remove n ∈ ops → n < j.consensus_value_.ledger_seq)
    (hr : run D m ops = some m1) : mapFind k m1.completed_ctxs_ = some j := by
  induction ops generalizing m with
  | nil =>
    simp only [run, Option.some.injEq] at hr
    subst hr; exact h
  | cons op rest ih =>
    simp only [run] at hr
    cases hs : step D m op with
    | none => rw [hs] at hr; exact Option.noConfusion hr
    | some m2 =>
      rw [hs] at hr
      have h2 := cached_step D m m2 op k j h
        (fun n hn => hops n (by rw [hn]; exact List.mem_cons_self _ _)) hs
      exact ih m2 h2 (fun n hn => hops n (List.mem_cons_of_mem _ hn)) hr

theorem KeysAreFingerprints_Do (D : Deps) (m : LedgerContextManager) (c : LedgerContext)
    (a : ApplyOutcome) (hm : KeysAreFingerprints D m)
    (hc : c.hash_ = fingerprint D c.consensus_value_) :
    KeysAreFingerprints D (Do D m c a).mgr := by
  unfold Do
  by_cases hl : c.lpmanager_ = true
  · simp only [hl, if_true, MoveRunningToComplete, MoveRunningToComplete_loop_eq_filter]
    refine ⟨fun e he => hm.1 e (List.mem_of_mem_filter he), ?_⟩
    intro e he
    rcases mem_mapInsert _ _ _ _ he with h | h
    · exact hm.2 e h
    · subst h; exact hc
  · simp only [hl]
    exact hm

theorem KeysAreFingerprints_step (D : Deps) (m m1 : LedgerContextManager) (op : Op)
    (hm : KeysAreFingerprints D m) (hs : step D m op = some m1) :
    KeysAreFingerprints D m1 := by
  cases op with
  | Async cv timeout callback tti start_ok =>
    simp only [step, AsyncPreProcess] at hs
    by_cases hc : CheckComplete m (fingerprint D cv) > 0
    · simp only [hc, if_true, Option.map_some', Option.some.injEq] at hs
      subst hs; exact hm
    · simp only [hc, if_false] at hs
      cases start_ok with
      | false =>
        simp [multimapInsert, AsyncPreProcess_eraseLoop_append, LedgerContext.newManaged] at hs
      | true =>
        simp only [Bool.not_true, Bool.false_eq_true, if_false, Option.map_some',
          Option.some.injEq] at hs
        subst hs
        refine ⟨?_, hm.2⟩
        intro e he
        simp only [multimapInsert, List.mem_append, List.mem_singleton] at he
        rcases he with he | he
        · exact hm.1 e he
        · subst he; rfl
  | SyncPre cv total_timeout tti w =>
    simp only [step, Option.some.injEq] at hs
    subst hs
    unfold SyncPreProcess
    by_cases hc : CheckComplete m (fingerprint D cv) > 0
    · simp only [hc, if_true]; exact hm
    · simp only [hc, if_false]
      by_cases hst : w.start_ok = true
      · have hd := KeysAreFingerprints_Do D { m with heap_next_ := m.heap_next_ + 1 }
            (LedgerContext.newManaged m.heap_next_ (fingerprint D cv) cv MICRO_UNITS_PER_SEC
              PreProcessCallback.noop) w.apply hm rfl
        by_cases hto : w.is_timeout = true
        · simpa [hst, hto] using hd
        · simpa [hst, hto] using hd
      · simp only [hst]
        exact hm
  | WorkerExit addr a =>
    simp only [step] at hs
    cases hf : m.running_ctxs_.find? (fun e => decide (e.2.addr = addr)) with
    | none => rw [hf] at hs; exact Option.noConfusion hs
    | some e =>
      rw [hf] at hs
      simp only [Option.some.injEq] at hs
      subst hs
      exact KeysAreFingerprints_Do D m e.2 a hm (hm.1 e (List.mem_of_find?_eq_some hf))
  | Remove n =>
    simp only [step, Option.some.injEq] at hs
    subst hs
    refine ⟨hm.1, ?_⟩
    intro e he
    simp only [RemoveCompleted, RemoveCompleted_loop_eq_filter] at he
    exact hm.2 e (List.mem_of_mem_filter he)

theorem KeysAreFingerprints_run (D : Deps) (ops : List Op) (m m1 : LedgerContextManager)
    (hm : KeysAreFingerprints D m) (hr : run D m ops = some m1) :
    KeysAreFingerprints D m1 := by
  induction ops generalizing m with
  | nil =>
    simp only [run, Option.some.injEq] at hr
    subst hr; exact hm
  | cons op rest ih =>
    simp only [run] at hr
    cases hs : step D m op with
    | none => rw [hs] at hr; exact Option.noConfusion hr
    | some m2 =>
      rw [hs] at hr
      exact ih m2 (KeysAreFingerprints_step D m m2 op hm hs) hr

theorem KeysAreFingerprints_of_reachable (D : Deps) (m : LedgerContextManager)
    (h : Reachable D m) : KeysAreFingerprints D m := by
  obtain ⟨ops, hops⟩ := h
  exact KeysAreFingerprints_run D ops _ m
    (by simp [KeysAreFingerprints, LedgerContextManager.init]) hops

/-- C2, as stated, fails: on the empty registry `SyncPreProcess` returns true for a value whose
applier answers false (the worker ended before the timeout); the next `SyncPreProcess` for the
same value, with nothing pruned in between, creates a job and starts a worker again, and
returns false when that worker cannot be started. -/
theorem SyncPreProcess_true_then_rerun :
    (SyncPreProcess seqDeps LedgerContextManager.init cachedCv 0 (-1) (demoRun false)).ret
        = true ∧
      (SyncPreProcess seqDeps
          (SyncPreProcess seqDeps LedgerContextManager.init cachedCv 0 (-1) (demoRun false)).mgr
          cachedCv 0 (-1) (demoRun true)).effects
        = [Effect.New 1, Effect.Start 1 "process-value" true, Effect.Apply 1,
           Effect.Callback PreProcessCallback.noop true] ∧
      (SyncPreProcess seqDeps
          (SyncPreProcess seqDeps LedgerContextManager.init cachedCv 0 (-1) (demoRun false)).mgr
          cachedCv 0 (-1) failedStart).ret = false := by
  decide

/-- C2, amended.  Let `SyncPreProcess(cv)` return true in a reachable registry and leave a
successful job cached for the fingerprint of `cv` (`CheckComplete` is 1 afterwards), the
fingerprint determining the sequence number.  Then after any further steps in which every
`RemoveCompleted(n)` has `n < cv.ledger_seq`, `SyncPreProcess(cv2)` for a value with the same
fingerprint returns true, creates and starts no job, and leaves the registry and the
`timeout_tx_index` output as they were. -/
theorem SyncPreProcess_cache_shortcut (D : Deps) (m m2 : LedgerContextManager)
    (cv cv2 : ConsensusValue) (t1 i1 t2 i2 : Int) (w1 w2 : WorkerRun) (ops : List Op)
    (hreach : Reachable D m)
    (hfp : ∀ b, fingerprint D b = fingerprint D cv → b.ledger_seq = cv.ledger_seq)
    (_hret : (SyncPreProcess D m cv t1 i1 w1).ret = true)
    (hok : CheckComplete (SyncPreProcess D m cv t1 i1 w1).mgr (fingerprint D cv) = 1)
    (hops : ∀ n, Op.Remove n ∈ ops → n < cv.ledger_seq)
    (hrun : run D (SyncPreProcess D m cv t1 i1 w1).mgr ops = some m2)
    (hcv2 : fingerprint D cv2 = fingerprint D cv) :
    SyncPreProcess D m2 cv2 t2 i2 w2
      = { ret := true, timeout_tx_index := i2, mgr := m2, effects := [] } := by
  obtain ⟨ops0, hops0⟩ := hreach
  have hstep : step D m (Op.SyncPre cv t1 i1 w1) = some (SyncPreProcess D m cv t1 i1 w1).mgr :=
    rfl
  have hwf0 : KeysAreFingerprints D m := KeysAreFingerprints_of_reachable D m ⟨ops0, hops0⟩
  have hwf := KeysAreFingerprints_step D m _ _ hwf0 hstep
  obtain ⟨j, hj, hres⟩ := (CheckComplete_pos_iff _ _).mp
    ((CheckComplete_eq_one_iff _ _).mp hok)
  have hkey := hwf.2 _ (mapFind_mem _ _ _ hj)
  have hseq : j.consensus_value_.ledger_seq = cv.ledger_seq := hfp _ hkey.symm
  have hj2 := cached_run D ops _ m2 _ j hj (fun n hn => by rw [hseq]; exact hops n hn) hrun
  apply SyncPreProcess_of_pos
  rw [hcv2]
  exact (CheckComplete_pos_iff _ _).mpr ⟨j, hj2, hres⟩

/-- Instance of amended C2: a successful `SyncPreProcess(cachedCv)` on the empty registry, then
a prune at 9, the pre-processing of two other values and a worker exit, then
`SyncPreProcess(cachedCv)` again, this time with a worker that could not even be started. -/
theorem SyncPreProcess_cache_shortcut_witness :
    (SyncPreProcess seqDeps LedgerContextManager.init cachedCv 0 (-1) (demoRun true)).ret
        = true ∧
      CheckComplete
        (SyncPreProcess seqDeps LedgerContextManager.init cachedCv 0 (-1) (demoRun true)).mgr
        (fingerprint seqDeps cachedCv) = 1 ∧
      run seqDeps
        (SyncPreProcess seqDeps LedgerContextManager.init cachedCv 0 (-1) (demoRun true)).mgr
        betweenOps = some shortcutAfter ∧
      SyncPreProcess seqDeps shortcutAfter cachedCv 0 5 failedStart
        = { ret := true, timeout_tx_index := 5, mgr := shortcutAfter, effects := [] } := by
  refine ⟨by decide, by decide, by decide, ?_⟩
  exact SyncPreProcess_cache_shortcut seqDeps LedgerContextManager.init shortcutAfter cachedCv
    cachedCv 0 (-1) 0 5 (demoRun true) failedStart betweenOps ⟨[], rfl⟩
    (by
      intro b h
      by_cases hb : b.ledger_seq = 10
      · exact hb
      · simp [fingerprint, seqDeps, cachedCv, demoCv, hb] at h)
    (by decide) (by decide)
    (by
      intro n hn
      simp [betweenOps] at hn
      subst hn
      decide)
    (by decide) rfl

end bubi
